import Mathlib

/-!
Verification development for the GDG workshop repository.

The Python sources are shallowly embedded as Lean functions:
  * `clean_text` embeds `TextCleaner.clean_text` (DAY_1/text_cleaner.py),
  * `chunk_by_words`, `split_into_sentences`, `chunk_by_sentences` embed the
    corresponding methods of `TextChunker` (DAY_2/chunking_utility.py),
  * `cosine_similarity` embeds `SemanticSimilarity.cosine_similarity`
    (DAY_1/semantic_similarity.py), with real numbers standing for floats,
  * `find_answer`, `add_faq`, `processLine`, `load_from_file` embed the
    corresponding methods of `FAQFinder` (DAY_1/faq_finder.py), with rationals
    standing for floats and `Finset String` standing for Python sets.

Character classes are modelled by code point: `isSpaceChar` models the ASCII
portion of Python's whitespace class, `pyLower` models `str.lower` as the
character-wise ASCII case map.  Strings are handled through their `data`
character lists.
-/

/-- Models membership of the ASCII whitespace characters matched by
Python's `str.strip`, `str.split` and the regex class `\s`. -/
def isSpaceChar (c : Char) : Bool :=
  c.toNat = 32 || c.toNat = 9 || c.toNat = 10 || c.toNat = 13 ||
    c.toNat = 11 || c.toNat = 12

/-- Models the regex character class `[a-z0-9]`. -/
def isLowerAlnum (c : Char) : Bool :=
  (97 ≤ c.toNat && c.toNat ≤ 122) || (48 ≤ c.toNat && c.toNat ≤ 57)

/-- A character that is neither in `[a-z0-9]` nor whitespace: exactly the
characters that `clean_text`'s substitution step replaces by a space. -/
def isPunctLike (c : Char) : Bool :=
  !(isLowerAlnum c) && !(isSpaceChar c)

/-- Character-wise model of Python's `str.lower` (ASCII case map). -/
def pyLower (c : Char) : Char :=
  if 65 ≤ c.toNat && c.toNat ≤ 90 then Char.ofNat (c.toNat + 32) else c

/-- The substitution `re.sub(r'[^a-z0-9\s]', ' ', text)` acting on one
character. -/
def keepAlnumWs (c : Char) : Char :=
  if isLowerAlnum c || isSpaceChar c then c else ' '

/-- Drop leading whitespace (one side of Python's `str.strip`). -/
def lstripChars (l : List Char) : List Char :=
  l.dropWhile (fun c => isSpaceChar c)

/-- Models Python's `str.strip()` on a character list. -/
def stripChars (l : List Char) : List Char :=
  (lstripChars ((lstripChars l).reverse)).reverse

/-- Models Python's `str.strip()` on strings. -/
def pyStripStr (s : String) : String :=
  String.mk (stripChars s.data)

/-- The substitution `re.sub(r'\s+', ' ', text)`: every maximal run of
whitespace characters is replaced by a single space. -/
def collapseWs : List Char → List Char
  | [] => []
  | [c] => if isSpaceChar c then [' '] else [c]
  | a :: b :: rest =>
    if isSpaceChar a then
      (if isSpaceChar b then collapseWs (b :: rest)
       else ' ' :: collapseWs (b :: rest))
    else a :: collapseWs (b :: rest)

/-- The four steps of `TextCleaner.clean_text`, in source order: lowercase,
strip, replace `[^a-z0-9\s]` by a space, collapse whitespace runs. -/
def cleanChars (l : List Char) : List Char :=
  collapseWs ((stripChars (l.map pyLower)).map keepAlnumWs)

/-- Embeds `TextCleaner.clean_text` (DAY_1/text_cleaner.py, lines 24-62). -/
def clean_text (s : String) : String :=
  String.mk (cleanChars s.data)

/-- Accumulator-based word scanner underlying the model of Python's
`str.split()` (split on whitespace runs, discarding empty pieces).  `acc`
holds the characters of the current word in reverse order. -/
def pyWordsAux : List Char → List Char → List (List Char)
  | acc, [] => if acc = [] then [] else [acc.reverse]
  | acc, c :: rest =>
    if isSpaceChar c then
      (if acc = [] then pyWordsAux [] rest
       else acc.reverse :: pyWordsAux [] rest)
    else pyWordsAux (c :: acc) rest

/-- Models Python's `text.split()` (no separator argument). -/
def pySplit (s : String) : List String :=
  (pyWordsAux [] s.data).map String.mk

/-- Embeds `TextChunker.count_words`: `len(text.split())`. -/
def count_words (s : String) : Nat :=
  (pySplit s).length

/-- One chunk record produced by `TextChunker.chunk_by_words`, with the
metadata fields the source stores in its chunk dictionary. -/
structure Chunk where
  chunk_id : Nat
  text : String
  start_word : Nat
  end_word : Nat
  word_count : Nat
  method : String
deriving DecidableEq

/-- The `while start < len(words)` loop of `TextChunker.chunk_by_words`
(DAY_2/chunking_utility.py, lines 183-208), written with explicit fuel so
that a spinning loop is observable as fuel exhaustion (`none`).  Each
iteration takes `min(start + chunk_size, total)` words, appends a chunk,
moves `start` to `end - overlap`, and breaks when the new `start` fails to
advance past the chunk just appended. -/
def chunkByWordsFuel (cs ov : Nat) (words : List String) :
    Nat → Nat → Nat → Option (List Chunk)
  | 0, _, _ => none
  | fuel + 1, start, cid =>
    if start < words.length then
      let e := min (start + cs) words.length
      let cws := (words.drop start).take (e - start)
      let c : Chunk :=
        ⟨cid, String.intercalate " " cws, start, e, cws.length, "word-based"⟩
      let s2 := e - ov
      if s2 ≤ start then some [c]
      else (chunkByWordsFuel cs ov words fuel s2 (cid + 1)).map
        (fun rest => c :: rest)
    else some []

/-- Embeds `TextChunker.chunk_by_words`: run the loop with enough fuel
(one unit per word plus one; the termination theorem shows this suffices). -/
def chunk_by_words (cs ov : Nat) (text : String) : List Chunk :=
  (chunkByWordsFuel cs ov (pySplit text) ((pySplit text).length + 1) 0 0).getD []

/-- The `(start_word, end_word)` skeleton of the word-chunking loop: the same
recursion as `chunkByWordsFuel` but depending only on the word count `n`.
Used to settle offset claims by computation. -/
def chunkMetaFuel (cs ov n : Nat) : Nat → Nat → Option (List (Nat × Nat))
  | 0, _ => none
  | fuel + 1, start =>
    if start < n then
      let e := min (start + cs) n
      let s2 := e - ov
      if s2 ≤ start then some [(start, e)]
      else (chunkMetaFuel cs ov n fuel s2).map (fun rest => (start, e) :: rest)
    else some []

/-- Character scanner for `re.split(r'(?<=[.!?])\s+', text)`: cut after a
sentence-ending punctuation mark that is followed by whitespace, consuming
the whole whitespace run (`pending` records that the run is being skipped).
`acc` holds the current piece in reverse order. -/
def sentAuxP : Bool → List Char → List Char → List (List Char)
  | _, acc, [] => [acc.reverse]
  | pending, acc, c :: rest =>
    if pending && isSpaceChar c then sentAuxP true acc rest
    else if (c = '.' || c = '!' || c = '?') &&
        (match rest with | d :: _ => isSpaceChar d | [] => false) then
      (c :: acc).reverse :: sentAuxP true [] rest
    else sentAuxP false (c :: acc) rest

/-- Embeds `TextChunker.split_into_sentences` (DAY_2/chunking_utility.py,
lines 95-126): regex split, then strip each piece and drop empties. -/
def split_into_sentences (text : String) : List String :=
  ((sentAuxP false [] text.data).map stripChars).filter (fun l => l ≠ [])
    |>.map String.mk

/-- One chunk record produced by `TextChunker.chunk_by_sentences`. -/
structure SChunk where
  chunk_id : Nat
  text : String
  sentence_count : Nat
  word_count : Nat
  method : String
deriving DecidableEq

/-- Loop body of `TextChunker.chunk_by_sentences` (DAY_2/chunking_utility.py,
lines 257-280).  State: chunks so far, current sentence buffer, its running
word count, next chunk id.  On overflow with a non-empty buffer the buffer is
flushed and reseeded with its last two sentences (or fewer). -/
def sentStep (cs : Nat) (st : List SChunk × List String × Nat × Nat)
    (sentence : String) : List SChunk × List String × Nat × Nat :=
  let chunks := st.1
  let cur := st.2.1
  let cwc := st.2.2.1
  let cid := st.2.2.2
  let swc := count_words sentence
  if cs < cwc + swc ∧ cur ≠ [] then
    let flushed : SChunk :=
      ⟨cid, String.intercalate " " cur, cur.length, cwc, "sentence-based"⟩
    let ov := if 2 ≤ cur.length then cur.drop (cur.length - 2) else cur
    let cwc2 := (ov.map count_words).sum
    (chunks ++ [flushed], ov ++ [sentence], cwc2 + swc, cid + 1)
  else (chunks, cur ++ [sentence], cwc + swc, cid)

/-- Embeds `TextChunker.chunk_by_sentences`: fold the loop body over the
sentences, then flush a non-empty final buffer. -/
def chunk_by_sentences (cs : Nat) (text : String) : List SChunk :=
  let st := (split_into_sentences text).foldl (sentStep cs) ([], [], 0, 0)
  if st.2.1 ≠ [] then
    st.1 ++ [⟨st.2.2.2, String.intercalate " " st.2.1, st.2.1.length,
      st.2.2.1, "sentence-based"⟩]
  else st.1

/-- Buffer-level shadow of `sentStep`: the same loop on the sentence buffers
themselves (no chunk records), used to state which sentence runs each chunk
joins. -/
def bufStep (cs : Nat) (st : List (List String) × List String × Nat)
    (sentence : String) : List (List String) × List String × Nat :=
  let bufs := st.1
  let cur := st.2.1
  let cwc := st.2.2
  let swc := count_words sentence
  if cs < cwc + swc ∧ cur ≠ [] then
    let ov := if 2 ≤ cur.length then cur.drop (cur.length - 2) else cur
    (bufs ++ [cur], ov ++ [sentence], (ov.map count_words).sum + swc)
  else (bufs, cur ++ [sentence], cwc + swc)

/-- The sentence buffers of all chunks `chunk_by_sentences` produces, in
order (flushed buffers plus the non-empty final buffer). -/
def sentenceBuffers (cs : Nat) (sentences : List String) :
    List (List String) :=
  let st := sentences.foldl (bufStep cs) ([], [], 0)
  if st.2.1 ≠ [] then st.1 ++ [st.2.1] else st.1

/-- De-duplicated concatenation of successive sentence buffers: from each
buffer after the first, drop the carried-over overlap (the last two sentences
of the previous buffer, or fewer if it was shorter). -/
def dedupGo (prev : List String) : List (List String) → List String
  | [] => []
  | b :: bs => b.drop (min 2 prev.length) ++ dedupGo b bs

/-- See `dedupGo`. -/
def dedupConcat : List (List String) → List String
  | [] => []
  | b :: bs => b ++ dedupGo b bs

/-- One stored FAQ, as built by `FAQFinder.add_faq`: the original question,
the answer, and the question normalized by `clean_text`. -/
structure FAQEntry where
  question : String
  answer : String
  question_clean : String
deriving DecidableEq

/-- Embeds `FAQFinder.add_faq` (DAY_1/faq_finder.py, lines 69-90). -/
def add_faq (faqs : List FAQEntry) (question answer : String) :
    List FAQEntry :=
  faqs ++ [⟨question, answer, clean_text question⟩]

/-- The fixed stop-word set of `FAQFinder.__init__`. -/
def stopWords : Finset String :=
  {"a", "an", "the", "is", "are", "am", "be", "to", "of", "in",
   "on", "at", "for", "with", "do", "does", "i", "you", "we",
   "they", "there", "can", "will", "it", "what", "how", "when", "where"}

/-- The fixed synonym table of `FAQFinder.__init__`, as a lookup returning
the listed synonyms (empty for words not in the table). -/
def synonymsOf (w : String) : List String :=
  if w = "sign" then ["register", "signup", "join", "enroll"]
  else if w = "register" then ["sign", "signup", "join", "enroll"]
  else if w = "signup" then ["sign", "register", "join", "enroll"]
  else if w = "pay" then ["fee", "cost", "price", "money", "charge"]
  else if w = "fee" then ["pay", "cost", "price", "money", "charge"]
  else if w = "cost" then ["pay", "fee", "price", "money", "charge"]
  else if w = "start" then ["schedule", "time", "begin", "when"]
  else if w = "time" then ["schedule", "start", "when"]
  else if w = "when" then ["time", "schedule", "start"]
  else if w = "where" then ["venue", "location", "place"]
  else if w = "venue" then ["where", "location", "place"]
  else if w = "location" then ["where", "venue", "place"]
  else []

/-- Embeds `FAQFinder.expand_with_synonyms` (DAY_1/faq_finder.py, lines
116-135): the input set united with the synonyms of each of its members. -/
def expand_with_synonyms (words : Finset String) : Finset String :=
  words ∪ words.biUnion (fun w => (synonymsOf w).toFinset)

/-- The processing `find_answer` applies to an already-normalized string on
both the user side and the FAQ side: split into a set of words, remove stop
words, expand with synonyms, and fall back to the unfiltered word set if
everything was a stop word. -/
def procWords (s : String) : Finset String :=
  let raw := (pySplit s).toFinset \ stopWords
  let ex := expand_with_synonyms raw
  if ex = ∅ then (pySplit s).toFinset else ex

/-- Jaccard similarity as computed in the matching loop of
`FAQFinder.find_answer`: `len(intersection) / len(union)` with a zero
fallback for an empty union.  Rationals stand for Python floats. -/
def jaccard (a b : Finset String) : ℚ :=
  if 0 < (a ∪ b).card then ((a ∩ b).card : ℚ) / ((a ∪ b).card : ℚ) else 0

/-- One iteration of the best-match loop of `find_answer`: keep the candidate
with the strictly highest score seen so far. -/
def findStep (uw : Finset String) (st : Option FAQEntry × ℚ)
    (faq : FAQEntry) : Option FAQEntry × ℚ :=
  let score := jaccard uw (procWords faq.question_clean)
  if st.2 < score then (some faq, score) else st

/-- The result dictionary of `FAQFinder.find_answer`. -/
structure FindResult where
  answer : String
  confidence : ℚ
  matched_question : Option String
deriving DecidableEq

/-- Embeds `FAQFinder.find_answer` (DAY_1/faq_finder.py, lines 137-233).
`none` models the uncaught `TypeError` of the success branch reading
`best_match['answer']` while `best_match` is still `None`; every normal
return is `some`. -/
def find_answer (faqs : List FAQEntry) (user_question : String)
    (threshold : ℚ) : Option FindResult :=
  if faqs = [] then
    some ⟨"❌ No FAQs loaded yet! Please add some FAQs first.", 0, none⟩
  else
    let user_clean := clean_text user_question
    let uw := procWords user_clean
    let best := faqs.foldl (findStep uw) (none, 0)
    if best.2 < threshold then
      some ⟨"I couldn't find a good answer to that question. Could you rephrase it?",
        best.2, none⟩
    else
      match best.1 with
      | some f => some ⟨f.answer, best.2, some f.question⟩
      | none => none

/-- Embeds the line handling of `FAQFinder.load_from_file` (DAY_1/
faq_finder.py, lines 104-108): strip the line; if it is non-blank and
contains `|`, split on the first `|` and add the stripped pieces as an FAQ;
otherwise skip it silently. -/
def processLine (faqs : List FAQEntry) (line : String) : List FAQEntry :=
  let l := stripChars line.data
  if l ≠ [] ∧ '|' ∈ l then
    let q := l.takeWhile (fun c => c ≠ '|')
    let a := (l.dropWhile (fun c => c ≠ '|')).drop 1
    add_faq faqs (String.mk (stripChars q)) (String.mk (stripChars a))
  else faqs

/-- Embeds `FAQFinder.load_from_file`: the file handle is abstracted into an
`Except` value — `.ok lines` is a readable file, `.error e` a missing or
unreadable one whose exception the method catches and reports (second
component of the result). -/
def load_from_file (faqs : List FAQEntry)
    (source : Except String (List String)) :
    List FAQEntry × Option String :=
  match source with
  | .ok lines => (lines.foldl processLine faqs, none)
  | .error e => (faqs, some e)

/-- Euclidean magnitude of a vector, as computed by
`SemanticSimilarity.cosine_similarity`.  Reals stand for Python floats. -/
noncomputable def magnitude (v : List ℝ) : ℝ :=
  Real.sqrt ((v.map (fun a => a * a)).sum)

/-- Dot product `sum(a * b for a, b in zip(vec1, vec2))`. -/
def dotList (v w : List ℝ) : ℝ :=
  (List.zipWith (fun a b => a * b) v w).sum

/-- Embeds `SemanticSimilarity.cosine_similarity` (DAY_1/
semantic_similarity.py, lines 45-102): `.error` models the raised
`ValueError` on a length mismatch; a zero magnitude yields `.ok 0`. -/
noncomputable def cosine_similarity (vec1 vec2 : List ℝ) :
    Except String ℝ :=
  if vec1.length ≠ vec2.length then
    .error "Vectors must be same length!"
  else if magnitude vec1 = 0 ∨ magnitude vec2 = 0 then .ok 0
  else .ok (dotList vec1 vec2 / (magnitude vec1 * magnitude vec2))

/-- Loop invariant of the sentence-chunking fold, stated on the buffer-level
shadow state after processing the sentence list `done`: the current buffer is
the suffix of `done` of its own length; every flushed buffer is a contiguous
run of `done`; the de-duplicated concatenation of the flushed buffers plus
the current buffer is exactly `done`; and the overlap width carried from the
last flushed buffer fits inside the current buffer. -/
def sentInv (done : List String)
    (sh : List (List String) × List String × Nat) : Prop :=
  (∃ j, j + sh.2.1.length = done.length ∧ sh.2.1 = done.drop j) ∧
  (∀ b ∈ sh.1, ∃ j, j + b.length ≤ done.length ∧
    b = (done.drop j).take b.length) ∧
  dedupConcat (sh.1 ++ [sh.2.1]) = done ∧
  min 2 ((sh.1.getLastD []).length) ≤ sh.2.1.length

/-! ### Sanity checks of the embedding on concrete inputs -/

example : clean_text "  Hello, World!!!  " = "hello world " := by decide
example : clean_text "Hello,World" = "hello world" := by decide
example : clean_text "!a" = " a" := by decide
example : clean_text "a!" = "a " := by decide
example : pySplit "  one  two\tthree " = ["one", "two", "three"] := by decide
example : count_words "a b  c" = 3 := by decide

example :
    (chunk_by_words 10 3 "1 2 3 4 5 6 7 8 9 10 11 12 13 14 15 16 17 18 19 20 21 22 23 24 25").map
      (fun c => (c.start_word, c.end_word)) =
    [(0, 10), (7, 17), (14, 24), (21, 25), (22, 25)] := by decide

example : split_into_sentences "Hi there. Dr. Smith came!  Ok?" =
    ["Hi there.", "Dr.", "Smith came!", "Ok?"] := by decide

example :
    (chunk_by_sentences 5 "a b c. d e f. g h i. j.").map (fun c => c.text) =
    ["a b c.", "a b c. d e f.", "a b c. d e f. g h i.", "d e f. g h i. j."] := by
  decide

example :
    dedupConcat (sentenceBuffers 5 (split_into_sentences "a b c. d e f. g h i. j.")) =
    ["a b c.", "d e f.", "g h i.", "j."] := by decide

example :
    find_answer [] "anything" (15 / 100) =
    some ⟨"❌ No FAQs loaded yet! Please add some FAQs first.", 0, none⟩ := by
  decide

example : find_answer [⟨"a", "x", clean_text "a"⟩] "b" 0 = none := by
  have hu : procWords (clean_text "b") = {"b"} := by decide
  have hf : procWords (clean_text "a") = {"a"} := by decide
  have h0 : (({"b"} : Finset String) ∩ {"a"}).card = 0 := by decide
  have h2 : (({"b"} : Finset String) ∪ {"a"}).card = 2 := by decide
  have hj : jaccard {"b"} {"a"} = 0 := by
    rw [jaccard, if_pos (h2 ▸ Nat.succ_pos 1), h0, h2]
    norm_num
  simp only [find_answer, List.foldl, findStep, hu, hf, hj]
  norm_num

/-! ### Lemmas about the text normalizer -/

lemma map_id_of_mem {α : Type} (f : α → α) :
    ∀ l : List α, (∀ c ∈ l, f c = c) → l.map f = l
  | [], _ => rfl
  | a :: l, h => by
    rw [List.map_cons, h a (List.mem_cons_self a l),
      map_id_of_mem f l (fun c hc => h c (List.mem_cons_of_mem a hc))]

lemma alnum_not_space {c : Char} (h : isLowerAlnum c = true) :
    isSpaceChar c = false := by
  simp only [isLowerAlnum, Bool.or_eq_true, Bool.and_eq_true,
    decide_eq_true_eq] at h
  simp only [isSpaceChar, Bool.or_eq_false_iff, decide_eq_false_iff_not]
  omega

lemma pyLower_fix {c : Char} (h : isLowerAlnum c = true ∨ c = ' ') :
    pyLower c = c := by
  rcases h with h | rfl
  · simp only [isLowerAlnum, Bool.or_eq_true, Bool.and_eq_true,
      decide_eq_true_eq] at h
    rw [pyLower, if_neg]
    simp only [Bool.and_eq_true, decide_eq_true_eq, not_and]
    omega
  · decide

lemma keep_fix {c : Char} (h : isLowerAlnum c = true ∨ c = ' ') :
    keepAlnumWs c = c := by
  rcases h with h | rfl
  · simp [keepAlnumWs, h]
  · decide

lemma keep_kind (c : Char) :
    isLowerAlnum (keepAlnumWs c) = true ∨ isSpaceChar (keepAlnumWs c) = true := by
  rw [keepAlnumWs]
  by_cases h : (isLowerAlnum c || isSpaceChar c) = true
  · rw [if_pos h]
    exact (Bool.or_eq_true _ _).mp h
  · rw [if_neg h]
    exact Or.inr (by decide)

lemma lstrip_head {l : List Char} {c : Char}
    (h : (lstripChars l).head? = some c) : isSpaceChar c = false := by
  have hd := List.head?_dropWhile_not (fun c => isSpaceChar c) l
  rw [lstripChars] at h
  rw [h] at hd
  exact hd

lemma lstrip_eq_strip_append (l : List Char) :
    ∃ t, lstripChars l = stripChars l ++ t := by
  obtain ⟨t, ht⟩ :=
    (List.dropWhile_suffix (fun c => isSpaceChar c) :
      List.dropWhile (fun c => isSpaceChar c) ((lstripChars l).reverse) <:+
        (lstripChars l).reverse)
  refine ⟨t.reverse, ?_⟩
  have key : t ++ lstripChars ((lstripChars l).reverse) = (lstripChars l).reverse := by
    rw [lstripChars]; exact ht
  rw [stripChars, ← List.reverse_append, key, List.reverse_reverse]

lemma strip_head {l : List Char} {c : Char}
    (h : (stripChars l).head? = some c) : isSpaceChar c = false := by
  obtain ⟨t, ht⟩ := lstrip_eq_strip_append l
  refine lstrip_head (?_ : (lstripChars l).head? = some c)
  rw [ht]
  rcases hs : stripChars l with _ | ⟨d, s⟩
  · rw [hs] at h; cases h
  · rw [hs] at h
    simp only [List.head?_cons, Option.some.injEq] at h
    rw [List.cons_append, List.head?_cons, h]

lemma strip_last {l : List Char} {c : Char}
    (h : (stripChars l).getLast? = some c) : isSpaceChar c = false := by
  rw [stripChars, List.getLast?_reverse] at h
  exact lstrip_head h

lemma strip_subset {l : List Char} {c : Char} (h : c ∈ stripChars l) : c ∈ l := by
  have h1 : c ∈ lstripChars ((lstripChars l).reverse) := by
    rw [stripChars] at h
    exact List.mem_reverse.mp h
  have h2 : c ∈ (lstripChars l).reverse :=
    (List.dropWhile_sublist _).mem h1
  exact (List.dropWhile_sublist _).mem (List.mem_reverse.mp h2)

lemma collapse_cons_nonws {a : Char} (h : isSpaceChar a = false) :
    ∀ l, collapseWs (a :: l) = a :: collapseWs l
  | [] => by simp [collapseWs, h]
  | b :: r => by simp [collapseWs, h]

lemma collapse_cons_ws_ws {a b : Char} (ha : isSpaceChar a = true)
    (hb : isSpaceChar b = true) (r : List Char) :
    collapseWs (a :: b :: r) = collapseWs (b :: r) := by
  simp only [collapseWs, ha, hb]
  simp

lemma collapse_cons_ws_nonws {a b : Char} (ha : isSpaceChar a = true)
    (hb : isSpaceChar b = false) (r : List Char) :
    collapseWs (a :: b :: r) = ' ' :: collapseWs (b :: r) := by
  simp only [collapseWs, ha, hb]
  simp

lemma getLast?_cons_ne {α : Type} (a : α) {X : List α} (h : X ≠ []) :
    (a :: X).getLast? = X.getLast? := by
  cases X with
  | nil => exact absurd rfl h
  | cons x xs => exact List.getLast?_cons_cons

lemma collapse_ne_nil : ∀ l : List Char, l ≠ [] → collapseWs l ≠ [] := by
  intro l
  induction l with
  | nil => exact fun h => absurd rfl h
  | cons a l ih =>
    intro _
    cases l with
    | nil =>
      by_cases ha : isSpaceChar a = true
      · simp [collapseWs, ha]
      · simp [collapseWs, ha]
    | cons b r =>
      by_cases ha : isSpaceChar a = true
      · by_cases hb : isSpaceChar b = true
        · rw [collapse_cons_ws_ws ha hb]
          exact ih (List.cons_ne_nil b r)
        · rw [collapse_cons_ws_nonws ha (Bool.not_eq_true _ ▸ hb)]
          exact List.cons_ne_nil _ _
      · rw [collapse_cons_nonws (Bool.not_eq_true _ ▸ ha)]
        exact List.cons_ne_nil _ _

lemma collapse_mem :
    ∀ l : List Char, ∀ c ∈ collapseWs l,
      c = ' ' ∨ (c ∈ l ∧ isSpaceChar c = false) := by
  intro l
  induction l with
  | nil => intro c hc; cases hc
  | cons a l ih =>
    intro c hc
    cases l with
    | nil =>
      cases ha : isSpaceChar a with
      | true =>
        simp [collapseWs, ha] at hc
        exact Or.inl hc
      | false =>
        simp [collapseWs, ha] at hc
        subst hc
        exact Or.inr ⟨List.mem_singleton_self _, ha⟩
    | cons b r =>
      by_cases ha : isSpaceChar a = true
      · by_cases hb : isSpaceChar b = true
        · rw [collapse_cons_ws_ws ha hb] at hc
          rcases ih c hc with h | ⟨hm, hs⟩
          · exact Or.inl h
          · exact Or.inr ⟨List.mem_cons_of_mem a hm, hs⟩
        · rw [collapse_cons_ws_nonws ha (Bool.not_eq_true _ ▸ hb)] at hc
          rcases List.mem_cons.mp hc with h | h
          · exact Or.inl h
          · rcases ih c h with h2 | ⟨hm, hs⟩
            · exact Or.inl h2
            · exact Or.inr ⟨List.mem_cons_of_mem a hm, hs⟩
      · rw [collapse_cons_nonws (Bool.not_eq_true _ ▸ ha)] at hc
        rcases List.mem_cons.mp hc with h | h
        · exact Or.inr ⟨h ▸ List.mem_cons_self a _, h ▸ Bool.not_eq_true _ ▸ ha⟩
        · rcases ih c h with h2 | ⟨hm, hs⟩
          · exact Or.inl h2
          · exact Or.inr ⟨List.mem_cons_of_mem a hm, hs⟩

lemma collapse_head_nonws {a : Char} (h : isSpaceChar a = false)
    (l : List Char) : (collapseWs (a :: l)).head? = some a := by
  rw [collapse_cons_nonws h, List.head?_cons]

lemma collapse_chain :
    ∀ l : List Char, (collapseWs l).Chain'
      (fun x y => ¬(isSpaceChar x = true ∧ isSpaceChar y = true)) := by
  intro l
  induction l with
  | nil => exact List.chain'_nil
  | cons a l ih =>
    cases l with
    | nil =>
      cases ha : isSpaceChar a
      · simp [collapseWs, ha]
      · simp [collapseWs, ha]
    | cons b r =>
      cases ha : isSpaceChar a with
      | true =>
        cases hb : isSpaceChar b with
        | true => rw [collapse_cons_ws_ws ha hb]; exact ih
        | false =>
          rw [collapse_cons_ws_nonws ha hb]
          refine List.chain'_cons'.mpr ⟨?_, ih⟩
          intro y hy
          rw [collapse_head_nonws hb r] at hy
          cases hy
          intro hcontra
          rw [hb] at hcontra
          exact Bool.false_ne_true hcontra.2
      | false =>
        rw [collapse_cons_nonws ha]
        refine List.chain'_cons'.mpr ⟨?_, ih⟩
        intro y _
        intro hcontra
        rw [ha] at hcontra
        exact Bool.false_ne_true hcontra.1

lemma collapse_id :
    ∀ l : List Char, (∀ c ∈ l, isSpaceChar c = true → c = ' ') →
      l.Chain' (fun x y => ¬(isSpaceChar x = true ∧ isSpaceChar y = true)) →
      collapseWs l = l := by
  intro l
  induction l with
  | nil => intro _ _; rfl
  | cons a l ih =>
    intro hall hchain
    cases l with
    | nil =>
      cases ha : isSpaceChar a with
      | true =>
        have : a = ' ' := hall a (List.mem_singleton_self a) ha
        subst this
        simp [collapseWs, ha]
      | false => simp [collapseWs, ha]
    | cons b r =>
      have hchain2 := List.chain'_cons'.mp hchain
      have hRab : ¬(isSpaceChar a = true ∧ isSpaceChar b = true) :=
        hchain2.1 b (by rw [List.head?_cons]; rfl)
      have htail : (b :: r).Chain'
          (fun x y => ¬(isSpaceChar x = true ∧ isSpaceChar y = true)) :=
        hchain2.2
      have hallt : ∀ c ∈ b :: r, isSpaceChar c = true → c = ' ' :=
        fun c hc => hall c (List.mem_cons_of_mem a hc)
      cases ha : isSpaceChar a with
      | true =>
        have hb : isSpaceChar b = false := by
          cases hbv : isSpaceChar b
          · rfl
          · exact absurd ⟨ha, hbv⟩ hRab
        rw [collapse_cons_ws_nonws ha hb, ih hallt htail,
          hall a (List.mem_cons_self a _) ha]
      | false =>
        rw [collapse_cons_nonws ha, ih hallt htail]

lemma collapse_getLast_nonws :
    ∀ l : List Char, ∀ {c : Char}, l.getLast? = some c →
      isSpaceChar c = false → (collapseWs l).getLast? = some c := by
  intro l
  induction l with
  | nil => intro c h _; cases h
  | cons a l ih =>
    intro c hlast hc
    cases l with
    | nil =>
      rw [List.getLast?_singleton] at hlast
      cases hlast
      simp [collapseWs, hc]
    | cons b r =>
      rw [List.getLast?_cons_cons] at hlast
      cases ha : isSpaceChar a with
      | true =>
        cases hb : isSpaceChar b with
        | true => rw [collapse_cons_ws_ws ha hb]; exact ih hlast hc
        | false =>
          rw [collapse_cons_ws_nonws ha hb,
            getLast?_cons_ne _ (collapse_ne_nil _ (List.cons_ne_nil b r))]
          exact ih hlast hc
      | false =>
        rw [collapse_cons_nonws ha,
          getLast?_cons_ne _ (collapse_ne_nil _ (List.cons_ne_nil b r))]
        exact ih hlast hc

lemma clean_chars_kind (l : List Char) :
    ∀ c ∈ cleanChars l, isLowerAlnum c = true ∨ c = ' ' := by
  intro c hc
  rcases collapse_mem _ c hc with h | ⟨hm, hs⟩
  · exact Or.inr h
  · obtain ⟨x, _, hkeep⟩ := List.mem_map.mp hm
    rcases keep_kind x with hk | hk
    · exact Or.inl (hkeep ▸ hk)
    · rw [hkeep] at hk
      rw [hk] at hs
      cases hs

lemma clean_chain (l : List Char) :
    (cleanChars l).Chain' (fun x y => ¬(x = ' ' ∧ y = ' ')) := by
  have h : (cleanChars l).Chain'
      (fun x y => ¬(isSpaceChar x = true ∧ isSpaceChar y = true)) :=
    collapse_chain _
  refine List.Chain'.imp ?_ h
  intro a b hab hc
  exact hab ⟨by rw [hc.1]; decide, by rw [hc.2]; decide⟩

lemma clean_head {l : List Char}
    (h : (cleanChars l).head? = some ' ') :
    ∃ c, (stripChars (l.map pyLower)).head? = some c ∧
      isPunctLike c = true := by
  rcases hm : stripChars (l.map pyLower) with _ | ⟨c0, t⟩
  · rw [cleanChars, hm] at h
    simp [collapseWs] at h
  · refine ⟨c0, by rw [List.head?_cons], ?_⟩
    have hc0ws : isSpaceChar c0 = false :=
      strip_head (by rw [hm, List.head?_cons])
    by_cases halnum : isLowerAlnum c0 = true
    · have hk : keepAlnumWs c0 = c0 := keep_fix (Or.inl halnum)
      have hh : (cleanChars l).head? = some c0 := by
        rw [cleanChars, hm, List.map_cons, hk]
        exact collapse_head_nonws hc0ws _
      rw [h] at hh
      injection hh with h2
      exact absurd halnum (by rw [← h2]; decide)
    · have hnal : isLowerAlnum c0 = false := Bool.not_eq_true _ ▸ halnum
      rw [isPunctLike, hnal, hc0ws]
      rfl

lemma clean_last {l : List Char}
    (h : (cleanChars l).getLast? = some ' ') :
    ∃ c, (stripChars (l.map pyLower)).getLast? = some c ∧
      isPunctLike c = true := by
  rcases hm : (stripChars (l.map pyLower)).getLast? with _ | c0
  · have hnil : stripChars (l.map pyLower) = [] :=
      List.getLast?_eq_none_iff.mp hm
    rw [cleanChars, hnil] at h
    simp [collapseWs] at h
  · refine ⟨c0, rfl, ?_⟩
    have hc0ws : isSpaceChar c0 = false := strip_last hm
    by_cases halnum : isLowerAlnum c0 = true
    · have hk : keepAlnumWs c0 = c0 := keep_fix (Or.inl halnum)
      have hlast2 :
          ((stripChars (l.map pyLower)).map keepAlnumWs).getLast? = some c0 := by
        rw [List.getLast?_map, hm]
        simp [hk]
      have hh : (cleanChars l).getLast? = some c0 :=
        collapse_getLast_nonws _ hlast2 hc0ws
      rw [h] at hh
      injection hh with h2
      exact absurd halnum (by rw [← h2]; decide)
    · have hnal : isLowerAlnum c0 = false := Bool.not_eq_true _ ▸ halnum
      rw [isPunctLike, hnal, hc0ws]
      rfl

lemma chain_lstrip {R : Char → Char → Prop} {l : List Char}
    (h : l.Chain' R) : (lstripChars l).Chain' R := by
  obtain ⟨t, ht⟩ :=
    (List.dropWhile_suffix (fun c => isSpaceChar c) :
      List.dropWhile (fun c => isSpaceChar c) l <:+ l)
  rw [← ht] at h
  exact (List.chain'_append.mp h).2.1

lemma chain_reverse_of {R : Char → Char → Prop}
    (hsymm : ∀ a b, R a b → R b a) {l : List Char}
    (h : l.Chain' R) : l.reverse.Chain' R := by
  rw [List.chain'_reverse]
  exact List.Chain'.imp (fun a b hab => hsymm a b hab) h

lemma chain_strip {R : Char → Char → Prop} (hsymm : ∀ a b, R a b → R b a)
    {l : List Char} (h : l.Chain' R) : (stripChars l).Chain' R := by
  rw [stripChars]
  exact chain_reverse_of hsymm (chain_lstrip (chain_reverse_of hsymm (chain_lstrip h)))

lemma clean_idem_aux (l : List Char) :
    cleanChars (cleanChars l) = stripChars (cleanChars l) := by
  have hkind := clean_chars_kind l
  have hstripkind : ∀ c ∈ stripChars (cleanChars l),
      isLowerAlnum c = true ∨ c = ' ' :=
    fun c hc => hkind c (strip_subset hc)
  have hmap1 : (cleanChars l).map pyLower = cleanChars l :=
    map_id_of_mem _ _ (fun c hc => pyLower_fix (hkind c hc))
  have hmap2 : (stripChars (cleanChars l)).map keepAlnumWs =
      stripChars (cleanChars l) :=
    map_id_of_mem _ _ (fun c hc => keep_fix (hstripkind c hc))
  have hchain0 : (cleanChars l).Chain'
      (fun x y => ¬(isSpaceChar x = true ∧ isSpaceChar y = true)) :=
    collapse_chain _
  have hchain : (stripChars (cleanChars l)).Chain'
      (fun x y => ¬(isSpaceChar x = true ∧ isSpaceChar y = true)) :=
    chain_strip (fun a b hab hc => hab ⟨hc.2, hc.1⟩) hchain0
  have hid : collapseWs (stripChars (cleanChars l)) =
      stripChars (cleanChars l) := by
    refine collapse_id _ ?_ hchain
    intro c hc hws
    rcases hstripkind c hc with h | h
    · rw [alnum_not_space h] at hws
      cases hws
    · exact h
  show collapseWs ((stripChars ((cleanChars l).map pyLower)).map keepAlnumWs) =
    stripChars (cleanChars l)
  rw [hmap1, hmap2, hid]

/-! ### Claims C2 and C3: properties of the normalizer -/

/-- C2, counterexample: `clean_text` is not idempotent.  On "!a" the leading
punctuation character becomes a leading space (strip runs before the
punctuation substitution), and the second application strips that space:
`clean_text "!a" = " a"` but `clean_text (clean_text "!a") = "a"`. -/
theorem normalize_idem_counterexample :
    clean_text (clean_text "!a") ≠ clean_text "!a" := by decide

/-- C2, amended: re-normalizing is exactly a `strip` of the first result —
`normalize (normalize T) = strip (normalize T)` for every string `T` — so
idempotence holds precisely when `normalize T` has no leading or trailing
space, which fails when the stripped input starts or ends with a
punctuation character. -/
theorem normalize_idem_upto_strip (T : String) :
    clean_text (clean_text T) = pyStripStr (clean_text T) := by
  show String.mk (cleanChars (cleanChars T.data)) =
    String.mk (stripChars (cleanChars T.data))
  rw [clean_idem_aux]

/-- C3, counterexample: the output of `clean_text` can end in a space — a
trailing punctuation character becomes a trailing space, which the claim's
leading-punctuation quirk clause does not excuse: `clean_text "a!" = "a "`. -/
theorem normalize_charset_counterexample :
    clean_text "a!" = "a " ∧ (clean_text "a!").data.getLast? = some ' ' :=
  ⟨by decide, by decide⟩

/-- C3, amended: for every string `T`, `clean_text T` contains only
characters of the class `[a-z0-9 ]` and no two consecutive spaces; a leading
space occurs only when the stripped lowercased input starts with a
punctuation-like character (the documented quirk), and — symmetrically, the
amendment — a trailing space occurs only when it ends with one. -/
theorem normalize_charset (T : String) :
    (∀ c ∈ (clean_text T).data, isLowerAlnum c = true ∨ c = ' ') ∧
    (clean_text T).data.Chain' (fun x y => ¬(x = ' ' ∧ y = ' ')) ∧
    ((clean_text T).data.head? = some ' ' →
      ∃ c, (stripChars (T.data.map pyLower)).head? = some c ∧
        isPunctLike c = true) ∧
    ((clean_text T).data.getLast? = some ' ' →
      ∃ c, (stripChars (T.data.map pyLower)).getLast? = some c ∧
        isPunctLike c = true) :=
  ⟨clean_chars_kind T.data, clean_chain T.data,
    fun h => clean_head h, fun h => clean_last h⟩

/-- Witness for C3 at the concrete input "!a": its normalization " a" starts
with a space, and the theorem instance produces the leading punctuation
character responsible for it. -/
theorem normalize_charset_witness :
    ∃ c, (stripChars (("!a" : String).data.map pyLower)).head? = some c ∧
      isPunctLike c = true :=
  (normalize_charset "!a").2.2.1 (by decide)

/-! ### Claims C1 and C7: the word-based chunker -/

lemma chunkMeta_corr (cs ov : Nat) (ws : List String) :
    ∀ fuel start cid,
      (chunkByWordsFuel cs ov ws fuel start cid).map
        (fun l => l.map (fun c => (c.start_word, c.end_word))) =
      chunkMetaFuel cs ov ws.length fuel start := by
  intro fuel
  induction fuel with
  | zero => intro s cid; rfl
  | succ fuel ih =>
    intro s cid
    simp only [chunkByWordsFuel, chunkMetaFuel]
    by_cases h : s < ws.length
    · rw [if_pos h, if_pos h]
      by_cases h2 : min (s + cs) ws.length - ov ≤ s
      · rw [if_pos h2, if_pos h2]
        rfl
      · rw [if_neg h2, if_neg h2, ← ih (min (s + cs) ws.length - ov) (cid + 1)]
        rcases chunkByWordsFuel cs ov ws fuel (min (s + cs) ws.length - ov)
          (cid + 1) with _ | rest
        · rfl
        · rfl
    · rw [if_neg h, if_neg h]
      rfl

lemma chunkMetaFuel_isSome (cs ov n : Nat) :
    ∀ fuel start, n - start < fuel →
      (chunkMetaFuel cs ov n fuel start).isSome = true := by
  intro fuel
  induction fuel with
  | zero => intro s h; omega
  | succ fuel ih =>
    intro s h
    simp only [chunkMetaFuel]
    by_cases hs : s < n
    · rw [if_pos hs]
      by_cases h2 : min (s + cs) n - ov ≤ s
      · rw [if_pos h2]
        rfl
      · rw [if_neg h2]
        have hlt : n - (min (s + cs) n - ov) < fuel := by omega
        have h3 := ih _ hlt
        rcases hmeta : chunkMetaFuel cs ov n fuel (min (s + cs) n - ov)
          with _ | v
        · rw [hmeta] at h3
          cases h3
        · rfl
    · rw [if_neg hs]
      rfl

/-- C7: for every text and every pair of positive `chunk_size` and `overlap`
— including the degenerate `overlap ≥ chunk_size` — the word-chunking loop
exits: with one fuel unit per word plus one, the fuel-indexed loop completes
(`some`) and returns exactly what `chunk_by_words` returns, because the
non-regression guard breaks whenever the next start fails to advance. -/
theorem chunk_by_words_terminates (cs ov : Nat) (text : String)
    (_hcs : 0 < cs) (_hov : 0 < ov) :
    chunkByWordsFuel cs ov (pySplit text) ((pySplit text).length + 1) 0 0 =
      some (chunk_by_words cs ov text) := by
  have hsome : (chunkMetaFuel cs ov (pySplit text).length
      ((pySplit text).length + 1) 0).isSome = true :=
    chunkMetaFuel_isSome cs ov _ _ 0 (by omega)
  rw [← chunkMeta_corr cs ov (pySplit text) ((pySplit text).length + 1) 0 0]
    at hsome
  rcases hval : chunkByWordsFuel cs ov (pySplit text)
      ((pySplit text).length + 1) 0 0 with _ | chunks
  · rw [hval] at hsome
    simp at hsome
  · rw [chunk_by_words, hval]
    rfl

/-- Witness for C7 in the degenerate case `overlap (5) ≥ chunk_size (3)` on
a seven-word text: the loop still exits. -/
theorem chunk_by_words_terminates_witness :
    chunkByWordsFuel 3 5 (pySplit "a b c d e f g")
      ((pySplit "a b c d e f g").length + 1) 0 0 =
      some (chunk_by_words 3 5 "a b c d e f g") :=
  chunk_by_words_terminates 3 5 "a b c d e f g" (by decide) (by decide)

/-- C1, counterexample: with `chunk_size = 10`, `overlap = 3` on a 25-word
text the start offsets are 0, 7, 14, 21, 22 — the guard breaks only after
appending a fifth chunk whose start advances by 1, not 7, so consecutive
start offsets do not all advance by exactly 7. -/
theorem word_chunk_offsets_counterexample :
    ¬ ((chunk_by_words 10 3
        "a a a a a a a a a a a a a a a a a a a a a a a a a").map
        (fun c => c.start_word)).Chain' (fun x y => y = x + 7) := by
  have hstarts : (chunk_by_words 10 3
      "a a a a a a a a a a a a a a a a a a a a a a a a a").map
      (fun c => c.start_word) = [0, 7, 14, 21, 22] := by decide
  rw [hstarts]
  simp [List.chain'_cons, List.chain'_singleton]

/-- C1, amended: with `chunk_size = 10`, `overlap = 3`, every text of exactly
25 words yields five chunks with (start, end) offsets (0,10), (7,17),
(14,24), (21,25), (22,25): starts advance by exactly 7 for the first four
chunks, then a final tail chunk advances by only 1; the last chunk's
end offset is exactly 25, as claimed. -/
theorem word_chunk_offsets (text : String)
    (h : (pySplit text).length = 25) :
    (chunk_by_words 10 3 text).map (fun c => (c.start_word, c.end_word)) =
    [(0, 10), (7, 17), (14, 24), (21, 25), (22, 25)] := by
  have hcorr := chunkMeta_corr 10 3 (pySplit text) ((pySplit text).length + 1) 0 0
  rw [h] at hcorr
  have hmeta : chunkMetaFuel 10 3 25 (25 + 1) 0 =
      some [(0, 10), (7, 17), (14, 24), (21, 25), (22, 25)] := by decide
  rw [hmeta] at hcorr
  show ((chunkByWordsFuel 10 3 (pySplit text)
    ((pySplit text).length + 1) 0 0).getD []).map
      (fun c => (c.start_word, c.end_word)) = _
  rw [h]
  rcases hval : chunkByWordsFuel 10 3 (pySplit text) (25 + 1) 0 0
    with _ | chunks
  · rw [hval] at hcorr
    cases hcorr
  · rw [hval] at hcorr
    rw [Option.getD_some]
    exact Option.some.inj hcorr

/-- Witness for C1 on a concrete 25-word text. -/
theorem word_chunk_offsets_witness :
    (chunk_by_words 10 3
      "a a a a a a a a a a a a a a a a a a a a a a a a a").map
      (fun c => (c.start_word, c.end_word)) =
    [(0, 10), (7, 17), (14, 24), (21, 25), (22, 25)] :=
  word_chunk_offsets "a a a a a a a a a a a a a a a a a a a a a a a a a"
    (by decide)

/-! ### Claims C4 and C9: safety of `find_answer` -/

/-- C9: with an empty FAQ list, `find_answer` returns the "no FAQs loaded"
result with confidence 0.0 and no matched question, for every query and
every threshold, without raising. -/
theorem find_answer_empty (query : String) (threshold : ℚ) :
    find_answer [] query threshold =
      some ⟨"❌ No FAQs loaded yet! Please add some FAQs first.", 0, none⟩ :=
  rfl

lemma findStep_none (uw : Finset String) :
    ∀ (l : List FAQEntry) (st : Option FAQEntry × ℚ),
      (st.1 = none → st.2 = 0) →
      (l.foldl (findStep uw) st).1 = none → (l.foldl (findStep uw) st).2 = 0 := by
  intro l
  induction l with
  | nil => intro st h; exact h
  | cons e l ih =>
    intro st h
    rw [List.foldl_cons]
    apply ih
    rw [findStep]
    by_cases hlt : st.2 < jaccard uw (procWords e.question_clean)
    · rw [if_pos hlt]
      intro hcontra
      cases hcontra
    · rw [if_neg hlt]
      exact h

/-- C4: for every threshold strictly above 0, every non-empty FAQ list and
every query, `find_answer` returns a well-formed result (`some`); and the
positivity precondition is required: with threshold = 0 and a query sharing
no words with the lone entry, every score is 0.0, the success branch is
reached with `best_match` still `None`, and reading its fields fails
(modelled by `none`). -/
theorem find_answer_safe :
    (∀ (faqs : List FAQEntry) (query : String) (t : ℚ),
      0 < t → faqs ≠ [] → (find_answer faqs query t).isSome = true) ∧
    find_answer [⟨"a", "x", clean_text "a"⟩] "b" 0 = none := by
  constructor
  · intro faqs query t ht hne
    rw [find_answer, if_neg hne]
    by_cases hlt :
        (faqs.foldl (findStep (procWords (clean_text query))) (none, 0)).2 < t
    · rw [if_pos hlt]
      rfl
    · rw [if_neg hlt]
      rcases hb : (faqs.foldl (findStep (procWords (clean_text query)))
          (none, 0)).1 with _ | f
      · have h0 : (faqs.foldl (findStep (procWords (clean_text query)))
            (none, 0)).2 = 0 :=
          findStep_none _ faqs (none, 0) (fun _ => rfl) hb
        rw [h0] at hlt
        exact absurd ht hlt
      · rfl
  · have hu : procWords (clean_text "b") = {"b"} := by decide
    have hf : procWords (clean_text "a") = {"a"} := by decide
    have h0 : (({"b"} : Finset String) ∩ {"a"}).card = 0 := by decide
    have h2 : (({"b"} : Finset String) ∪ {"a"}).card = 2 := by decide
    have hj : jaccard {"b"} {"a"} = 0 := by
      rw [jaccard, if_pos (h2 ▸ Nat.succ_pos 1), h0, h2]
      norm_num
    simp only [find_answer, List.foldl, findStep, hu, hf, hj]
    norm_num

/-- Witness for C4: a concrete lookup with positive threshold on a non-empty
FAQ list produces a result. -/
theorem find_answer_safe_witness :
    (find_answer [⟨"q", "ans", clean_text "q"⟩] "whatever" 1).isSome = true :=
  find_answer_safe.1 [⟨"q", "ans", clean_text "q"⟩] "whatever" 1 (by norm_num)
    (by decide)

/-! ### Claim C8: cosine similarity error handling -/

/-- C8: `cosine_similarity` fails with a size-mismatch error exactly when the
vectors have different lengths; for equal lengths, a zero Euclidean magnitude
on either side yields `.ok 0` (no division error), and otherwise the result
is the dot product divided by the product of the magnitudes. -/
theorem cosine_similarity_spec (v1 v2 : List ℝ) :
    ((∃ e, cosine_similarity v1 v2 = .error e) ↔ v1.length ≠ v2.length) ∧
    (v1.length = v2.length → (magnitude v1 = 0 ∨ magnitude v2 = 0) →
      cosine_similarity v1 v2 = .ok 0) ∧
    (v1.length = v2.length → magnitude v1 ≠ 0 → magnitude v2 ≠ 0 →
      cosine_similarity v1 v2 =
        .ok (dotList v1 v2 / (magnitude v1 * magnitude v2))) := by
  refine ⟨⟨?_, ?_⟩, ?_, ?_⟩
  · rintro ⟨e, he⟩
    by_cases h : v1.length ≠ v2.length
    · exact h
    · exfalso
      rw [cosine_similarity, if_neg h] at he
      by_cases hm : magnitude v1 = 0 ∨ magnitude v2 = 0
      · rw [if_pos hm] at he
        cases he
      · rw [if_neg hm] at he
        cases he
  · intro h
    exact ⟨"Vectors must be same length!", by rw [cosine_similarity, if_pos h]⟩
  · intro heq hm
    rw [cosine_similarity, if_neg (fun hc => hc heq), if_pos hm]
  · intro heq hm1 hm2
    rw [cosine_similarity, if_neg (fun hc => hc heq),
      if_neg (not_or.mpr ⟨hm1, hm2⟩)]

/-- Witness for C8: equal-length vectors with a zero second vector produce
`.ok 0`, not an error. -/
theorem cosine_similarity_spec_witness :
    cosine_similarity [(3 : ℝ), 4] [0, 0] = .ok 0 :=
  (cosine_similarity_spec [(3 : ℝ), 4] [0, 0]).2.1 rfl
    (Or.inr (by simp [magnitude]))

/-! ### Claim C10: loading FAQ lines -/

lemma takeWhile_until_bar :
    ∀ q a : List Char, '|' ∉ q →
      (q ++ '|' :: a).takeWhile (fun c => c ≠ '|') = q ∧
      (q ++ '|' :: a).dropWhile (fun c => c ≠ '|') = '|' :: a := by
  intro q
  induction q with
  | nil =>
    intro a _
    constructor
    · rw [List.nil_append, List.takeWhile_cons]
      simp
    · rw [List.nil_append, List.dropWhile_cons]
      simp
  | cons c q ih =>
    intro a hq
    have hc : c ≠ '|' := fun h => hq (h ▸ List.mem_cons_self c q)
    have hq2 : '|' ∉ q := fun h => hq (List.mem_cons_of_mem c h)
    obtain ⟨ht, hd⟩ := ih a hq2
    constructor
    · rw [List.cons_append, List.takeWhile_cons, if_pos (decide_eq_true hc), ht]
    · rw [List.cons_append, List.dropWhile_cons, if_pos (decide_eq_true hc), hd]

/-- C10: a loaded line is split on the first `|` only (so answers may
contain further `|` characters); stripped-blank lines and lines without `|`
are skipped silently; a missing or unreadable source is reported as a
recoverable error, with all entries added before the failure kept. -/
theorem load_lines_spec :
    (∀ (faqs : List FAQEntry) (line : String) (q a : List Char),
      stripChars line.data = q ++ '|' :: a → '|' ∉ q →
      processLine faqs line =
        add_faq faqs (String.mk (stripChars q)) (String.mk (stripChars a))) ∧
    (∀ (faqs : List FAQEntry) (line : String),
      '|' ∉ stripChars line.data → processLine faqs line = faqs) ∧
    (∀ (faqs : List FAQEntry) (e : String),
      load_from_file faqs (.error e) = (faqs, some e)) := by
  refine ⟨?_, ?_, ?_⟩
  · intro faqs line q a hsplit hq
    obtain ⟨ht, hd⟩ := takeWhile_until_bar q a hq
    rw [processLine, hsplit, if_pos]
    · rw [ht, hd, List.drop_one, List.tail_cons]
    · exact ⟨List.append_ne_nil_of_right_ne_nil q (List.cons_ne_nil _ _),
        List.mem_append_right q (List.mem_cons_self _ _)⟩
  · intro faqs line hq
    rw [processLine, if_neg]
    intro hcontra
    exact hq hcontra.2
  · intro faqs e
    rfl

/-- Witness for C10: a line whose answer part itself contains `|` is split
on the first bar only. -/
theorem load_lines_spec_witness :
    processLine [] " q1 | has | bars " = add_faq [] "q1" "has | bars" := by
  have h := load_lines_spec.1 [] " q1 | has | bars "
    ("q1 ".data) (" has | bars".data) (by decide) (by decide)
  rw [h]
  decide

/-! ### Claim C5: exact-question matching -/

lemma jaccard_le_one (a b : Finset String) : jaccard a b ≤ 1 := by
  rw [jaccard]
  by_cases h : 0 < (a ∪ b).card
  · rw [if_pos h]
    rw [div_le_one (by exact_mod_cast h)]
    exact_mod_cast Finset.card_le_card Finset.inter_subset_union
  · rw [if_neg h]
    norm_num

lemma jaccard_self {a : Finset String} (h : a.Nonempty) : jaccard a a = 1 := by
  rw [jaccard, Finset.union_self, Finset.inter_self,
    if_pos (Finset.card_pos.mpr h)]
  rw [div_self]
  exact_mod_cast Nat.pos_iff_ne_zero.mp (Finset.card_pos.mpr h)

lemma jaccard_eq_one {a b : Finset String} (h : jaccard a b = 1) : a = b := by
  rw [jaccard] at h
  by_cases hu : 0 < (a ∪ b).card
  · rw [if_pos hu] at h
    have hcast : ((a ∩ b).card : ℚ) = ((a ∪ b).card : ℚ) := by
      field_simp at h
      exact_mod_cast h
    have hcards : (a ∪ b).card ≤ (a ∩ b).card := by
      exact_mod_cast le_of_eq hcast.symm
    have hiu : a ∩ b = a ∪ b :=
      Finset.eq_of_subset_of_card_le Finset.inter_subset_union hcards
    have hab : a ⊆ b :=
      subset_trans (Finset.subset_union_left : a ⊆ a ∪ b)
        (hiu ▸ Finset.inter_subset_right)
    have hba : b ⊆ a :=
      subset_trans (Finset.subset_union_right : b ⊆ a ∪ b)
        (hiu ▸ Finset.inter_subset_left)
    exact Finset.Subset.antisymm hab hba
  · rw [if_neg hu] at h
    norm_num at h

lemma foldl_score_lt_one (uw : Finset String) :
    ∀ (l : List FAQEntry) (st : Option FAQEntry × ℚ),
      st.2 < 1 →
      (∀ e ∈ l, procWords e.question_clean ≠ uw) →
      (l.foldl (findStep uw) st).2 < 1 := by
  intro l
  induction l with
  | nil => intro st h _; exact h
  | cons e l ih =>
    intro st h hall
    rw [List.foldl_cons]
    refine ih _ ?_ (fun x hx => hall x (List.mem_cons_of_mem e hx))
    rw [findStep]
    by_cases hlt : st.2 < jaccard uw (procWords e.question_clean)
    · rw [if_pos hlt]
      show jaccard uw (procWords e.question_clean) < 1
      rcases lt_or_eq_of_le (jaccard_le_one uw (procWords e.question_clean))
        with hlt2 | heq
      · exact hlt2
      · exact absurd (jaccard_eq_one heq).symm
          (hall e (List.mem_cons_self e l))
    · rw [if_neg hlt]
      exact h

lemma foldl_keep_one (uw : Finset String) :
    ∀ (l : List FAQEntry) (st : Option FAQEntry × ℚ),
      st.2 = 1 → l.foldl (findStep uw) st = st := by
  intro l
  induction l with
  | nil => intro st _; rfl
  | cons e l ih =>
    intro st h
    rw [List.foldl_cons, findStep,
      if_neg (by rw [h]; exact not_lt.mpr (jaccard_le_one _ _))]
    exact ih st h

lemma find_fold_exact (uw : Finset String) (l1 l2 : List FAQEntry)
    (e : FAQEntry) (He : procWords e.question_clean = uw) (Hne : uw.Nonempty)
    (Hfirst : ∀ x ∈ l1, procWords x.question_clean ≠ uw) :
    (l1 ++ e :: l2).foldl (findStep uw) (none, 0) = (some e, 1) := by
  rw [List.foldl_append, List.foldl_cons]
  have h1 : (l1.foldl (findStep uw) (none, 0)).2 < 1 :=
    foldl_score_lt_one uw l1 _ (by norm_num) Hfirst
  have hstep : findStep uw (l1.foldl (findStep uw) (none, 0)) e =
      (some e, 1) := by
    rw [findStep, He, jaccard_self Hne, if_pos h1]
  rw [hstep]
  exact foldl_keep_one uw l2 _ rfl

/-- C5, counterexample: the claim fails when the processed word set is
empty.  For the entry ("!!!", "ans") the stored normalized question is " ";
querying exactly that stored normalized question also processes to the empty
word set (so the claim's same-word-set hypothesis holds), but the Jaccard
union is empty, the score is 0.0 — not 1.0 — and with the default threshold
`find_answer` returns the no-match result instead of the entry's answer. -/
theorem faq_exact_match_counterexample :
    procWords (clean_text (clean_text "!!!")) = procWords (clean_text "!!!") ∧
    find_answer [⟨"!!!", "ans", clean_text "!!!"⟩] (clean_text "!!!")
        (15 / 100) =
      some ⟨"I couldn't find a good answer to that question. Could you rephrase it?",
        0, none⟩ := by
  constructor
  · decide
  · have h1 : procWords (clean_text (clean_text "!!!")) = ∅ := by decide
    have h2 : procWords (clean_text "!!!") = ∅ := by decide
    have hj : jaccard ∅ ∅ = 0 := by
      rw [jaccard]
      simp
    simp only [find_answer, List.foldl, findStep, h1, h2, hj]
    norm_num

/-- C5, amended: if the `i`-th entry's processed word set (normalize, drop
stop words, expand synonyms, with the all-stop-words fallback) equals the
processed word set of the query — the entry's stored normalized question —
and that set is non-empty, and no earlier entry has the same processed word
set, then the Jaccard score is 1.0 and `find_answer` with the default
threshold 0.15 returns exactly that entry's answer and original question.
The non-emptiness and first-entry provisos are the amendment. -/
theorem faq_exact_match (faqs : List FAQEntry) (i : Nat) (hi : i < faqs.length)
    (H : procWords (faqs[i].question_clean) =
      procWords (clean_text (faqs[i].question_clean)))
    (Hne : (procWords (faqs[i].question_clean)).Nonempty)
    (Hfirst : ∀ e ∈ faqs.take i,
      procWords e.question_clean ≠
        procWords (clean_text (faqs[i].question_clean))) :
    find_answer faqs (faqs[i].question_clean) (15 / 100) =
      some ⟨faqs[i].answer, 1, some (faqs[i].question)⟩ := by
  have hne : faqs ≠ [] := by
    intro h
    rw [h] at hi
    exact absurd hi (by simp)
  have hfold : faqs.foldl
      (findStep (procWords (clean_text (faqs[i].question_clean)))) (none, 0) =
      (some faqs[i], 1) := by
    have hdecomp := find_fold_exact
      (procWords (clean_text (faqs[i].question_clean)))
      (faqs.take i) (faqs.drop (i + 1)) faqs[i] H (H ▸ Hne) Hfirst
    rw [List.getElem_cons_drop faqs i hi, List.take_append_drop] at hdecomp
    exact hdecomp
  simp only [find_answer]
  rw [if_neg hne, hfold]
  rw [if_neg (by norm_num)]

/-- Witness for C5: a one-entry FAQ list queried with its own stored
normalized question returns that entry's answer with confidence 1. -/
theorem faq_exact_match_witness :
    find_answer [⟨"hello world", "hi", clean_text "hello world"⟩]
      (clean_text "hello world") (15 / 100) =
      some ⟨"hi", 1, some "hello world"⟩ :=
  faq_exact_match [⟨"hello world", "hi", clean_text "hello world"⟩] 0
    (by decide) (by decide) (by decide) (by simp)

/-! ### Claim C6: sentence-based chunks respect sentence boundaries -/

lemma sent_buf_step (cs : Nat) (st : List SChunk × List String × Nat × Nat)
    (sh : List (List String) × List String × Nat) (s : String)
    (h1 : st.1.map (fun c => c.text) =
      sh.1.map (fun b => String.intercalate " " b))
    (h2 : st.2.1 = sh.2.1) (h3 : st.2.2.1 = sh.2.2) :
    (sentStep cs st s).1.map (fun c => c.text) =
        (bufStep cs sh s).1.map (fun b => String.intercalate " " b) ∧
      (sentStep cs st s).2.1 = (bufStep cs sh s).2.1 ∧
      (sentStep cs st s).2.2.1 = (bufStep cs sh s).2.2 := by
  simp only [sentStep, bufStep, ← h2, ← h3]
  by_cases hc : cs < st.2.2.1 + count_words s ∧ st.2.1 ≠ []
  · rw [if_pos hc, if_pos hc]
    refine ⟨?_, rfl, rfl⟩
    simp [h1]
  · rw [if_neg hc, if_neg hc]
    exact ⟨h1, rfl, rfl⟩

lemma sent_buf_fold (cs : Nat) :
    ∀ (sentences : List String) (st : List SChunk × List String × Nat × Nat)
      (sh : List (List String) × List String × Nat),
      st.1.map (fun c => c.text) =
        sh.1.map (fun b => String.intercalate " " b) →
      st.2.1 = sh.2.1 → st.2.2.1 = sh.2.2 →
      ((sentences.foldl (sentStep cs) st).1.map (fun c => c.text) =
        (sentences.foldl (bufStep cs) sh).1.map
          (fun b => String.intercalate " " b)) ∧
      (sentences.foldl (sentStep cs) st).2.1 =
        (sentences.foldl (bufStep cs) sh).2.1 ∧
      (sentences.foldl (sentStep cs) st).2.2.1 =
        (sentences.foldl (bufStep cs) sh).2.2 := by
  intro sentences
  induction sentences with
  | nil => intro st sh h1 h2 h3; exact ⟨h1, h2, h3⟩
  | cons s rest ih =>
    intro st sh h1 h2 h3
    rw [List.foldl_cons, List.foldl_cons]
    obtain ⟨g1, g2, g3⟩ := sent_buf_step cs st sh s h1 h2 h3
    exact ih _ _ g1 g2 g3

lemma dedupGo_append :
    ∀ (bs : List (List String)) (p y : List String),
      dedupGo p (bs ++ [y]) =
        dedupGo p bs ++ y.drop (min 2 (bs.getLastD p).length)
  | [], p, y => by simp [dedupGo]
  | b :: bs, p, y => by
    rw [List.cons_append]
    simp only [dedupGo]
    rw [dedupGo_append bs b y, List.getLastD_cons, List.append_assoc]

lemma dedupConcat_append (bs : List (List String)) (y : List String) :
    dedupConcat (bs ++ [y]) =
      dedupConcat bs ++ y.drop (min 2 (bs.getLastD []).length) := by
  cases bs with
  | nil => simp [dedupConcat, dedupGo]
  | cons b bs =>
    rw [List.cons_append]
    simp only [dedupConcat]
    rw [dedupGo_append bs b y, List.getLastD_cons, List.append_assoc]

lemma slice_extend {done : List String} {s : String} {b : List String}
    {j : Nat} (hle : j + b.length ≤ done.length)
    (heq : b = (done.drop j).take b.length) :
    b = ((done ++ [s]).drop j).take b.length := by
  rw [List.drop_append_of_le_length (by omega),
    List.take_append_of_le_length (by rw [List.length_drop]; omega)]
  exact heq

lemma bufStep_inv (cs : Nat) (done : List String) (s : String)
    (bufs : List (List String)) (cur : List String) (cwc : Nat)
    (h : sentInv done (bufs, cur, cwc)) :
    sentInv (done ++ [s]) (bufStep cs (bufs, cur, cwc) s) := by
  simp only [sentInv] at h
  obtain ⟨⟨j, hj1, hj2⟩, hslice, hded, hov⟩ := h
  simp only [bufStep]
  by_cases hc : cs < cwc + count_words s ∧ cur ≠ []
  · rw [if_pos hc]
    by_cases h2 : 2 ≤ cur.length
    · rw [if_pos h2]
      have hovlen : (cur.drop (cur.length - 2)).length = 2 := by
        rw [List.length_drop]
        omega
      have hosuf : cur.drop (cur.length - 2) =
          done.drop (done.length - 2) := by
        have hstep : cur.drop (cur.length - 2) =
            (done.drop j).drop (cur.length - 2) := by
          rw [← hj2]
        rw [hstep, List.drop_drop]
        congr 1
        omega
      simp only [sentInv]
      refine ⟨⟨done.length - 2, ?_, ?_⟩, ?_, ?_, ?_⟩
      · simp only [List.length_append, List.length_cons, List.length_nil,
          hovlen]
        omega
      · rw [List.drop_append_of_le_length (by omega), ← hosuf]
      · intro b hb
        rcases List.mem_append.mp hb with hb | hb
        · obtain ⟨jb, hjb1, hjb2⟩ := hslice b hb
          exact ⟨jb, by rw [List.length_append]; omega,
            slice_extend hjb1 hjb2⟩
        · rw [List.mem_singleton] at hb
          subst hb
          refine ⟨j, by rw [List.length_append]; omega, ?_⟩
          refine slice_extend (by omega) ?_
          rw [List.take_of_length_le (by rw [List.length_drop]; omega)]
          exact hj2
      · rw [dedupConcat_append, List.getLastD_concat, hded]
        have hmin : min 2 cur.length = 2 := by omega
        rw [hmin, List.drop_left' hovlen]
      · rw [List.getLastD_concat, List.length_append, hovlen]
        simp only [List.length_cons, List.length_nil]
        omega
    · rw [if_neg h2]
      simp only [sentInv]
      refine ⟨⟨j, ?_, ?_⟩, ?_, ?_, ?_⟩
      · simp only [List.length_append, List.length_cons, List.length_nil]
        omega
      · rw [List.drop_append_of_le_length (by omega), ← hj2]
      · intro b hb
        rcases List.mem_append.mp hb with hb | hb
        · obtain ⟨jb, hjb1, hjb2⟩ := hslice b hb
          exact ⟨jb, by rw [List.length_append]; omega,
            slice_extend hjb1 hjb2⟩
        · rw [List.mem_singleton] at hb
          subst hb
          refine ⟨j, by rw [List.length_append]; omega, ?_⟩
          refine slice_extend (by omega) ?_
          rw [List.take_of_length_le (by rw [List.length_drop]; omega)]
          exact hj2
      · rw [dedupConcat_append, List.getLastD_concat, hded]
        have hmin : min 2 cur.length = cur.length := by omega
        rw [hmin, List.drop_left]
      · rw [List.getLastD_concat, List.length_append]
        simp only [List.length_cons, List.length_nil]
        omega
  · rw [if_neg hc]
    simp only [sentInv]
    refine ⟨⟨j, ?_, ?_⟩, ?_, ?_, ?_⟩
    · simp only [List.length_append, List.length_cons, List.length_nil]
      omega
    · rw [List.drop_append_of_le_length (by omega), ← hj2]
    · intro b hb
      obtain ⟨jb, hjb1, hjb2⟩ := hslice b hb
      exact ⟨jb, by rw [List.length_append]; omega, slice_extend hjb1 hjb2⟩
    · rw [dedupConcat_append, List.drop_append_of_le_length hov,
        ← List.append_assoc]
      have hd2 : dedupConcat bufs ++
          cur.drop (min 2 ((bufs.getLastD []).length)) = done := by
        rw [← dedupConcat_append]
        exact hded
      rw [hd2]
    · rw [List.length_append]
      simp only [List.length_cons, List.length_nil]
      omega

lemma bufFold_inv (cs : Nat) :
    ∀ (sentences done : List String)
      (sh : List (List String) × List String × Nat),
      sentInv done sh →
      sentInv (done ++ sentences) (sentences.foldl (bufStep cs) sh) := by
  intro sentences
  induction sentences with
  | nil =>
    intro done sh h
    rw [List.append_nil]
    exact h
  | cons s rest ih =>
    intro done sh h
    rw [List.foldl_cons]
    have h3 := ih (done ++ [s]) (bufStep cs sh s)
      (bufStep_inv cs done s sh.1 sh.2.1 sh.2.2 h)
    rw [List.append_assoc, List.singleton_append] at h3
    exact h3

lemma sentInv_nil : sentInv [] ([], [], 0) := by
  refine ⟨⟨0, rfl, rfl⟩, ?_, rfl, ?_⟩
  · intro b hb
    cases hb
  · decide

lemma bufStep_cur_ne (cs : Nat) :
    ∀ (l : List String) (sh : List (List String) × List String × Nat),
      l ≠ [] → ((l.foldl (bufStep cs) sh).2.1) ≠ [] := by
  intro l
  induction l with
  | nil => intro sh h; exact absurd rfl h
  | cons s rest ih =>
    intro sh _
    rw [List.foldl_cons]
    by_cases hrest : rest = []
    · subst hrest
      rw [List.foldl_nil]
      simp only [bufStep]
      by_cases hc : cs < sh.2.2 + count_words s ∧ sh.2.1 ≠ []
      · rw [if_pos hc]
        simp
      · rw [if_neg hc]
        simp
    · exact ih (bufStep cs sh s) hrest

/-- C6: every chunk produced by `chunk_by_sentences` is the space-join of a
contiguous run of the sentence sequence returned by `split_into_sentences`
(so no chunk boundary falls inside a sentence), and dropping the
carried-over overlap — the last two sentences of the previous chunk, or
fewer if it was shorter — from every chunk after the first and concatenating
reconstructs the original sentence sequence exactly. -/
theorem sentence_chunks_respect_sentences (cs : Nat) (text : String) :
    ((chunk_by_sentences cs text).map (fun c => c.text) =
      (sentenceBuffers cs (split_into_sentences text)).map
        (fun b => String.intercalate " " b)) ∧
    (∀ b ∈ sentenceBuffers cs (split_into_sentences text),
      ∃ j, j + b.length ≤ (split_into_sentences text).length ∧
        b = ((split_into_sentences text).drop j).take b.length) ∧
    dedupConcat (sentenceBuffers cs (split_into_sentences text)) =
      split_into_sentences text := by
  obtain ⟨g1, g2, g3⟩ := sent_buf_fold cs (split_into_sentences text)
    ([], [], 0, 0) ([], [], 0) rfl rfl rfl
  have hinv : sentInv (split_into_sentences text)
      ((split_into_sentences text).foldl (bufStep cs) ([], [], 0)) := by
    have h := bufFold_inv cs (split_into_sentences text) [] ([], [], 0)
      sentInv_nil
    rw [List.nil_append] at h
    exact h
  obtain ⟨⟨j, hj1, hj2⟩, hslice, hded, hov⟩ := hinv
  refine ⟨?_, ?_, ?_⟩
  · simp only [chunk_by_sentences, sentenceBuffers]
    by_cases hne :
        ((split_into_sentences text).foldl (bufStep cs) ([], [], 0)).2.1 = []
    · rw [if_neg (by rw [g2, hne]; exact fun h => h rfl),
        if_neg (by rw [hne]; exact fun h => h rfl)]
      exact g1
    · rw [if_pos (by rw [g2]; exact hne), if_pos hne]
      rw [List.map_append, List.map_append, g1]
      simp only [List.map_cons, List.map_nil]
      rw [g2]
  · intro b hb
    simp only [sentenceBuffers] at hb
    by_cases hne :
        ((split_into_sentences text).foldl (bufStep cs) ([], [], 0)).2.1 = []
    · rw [if_neg (by rw [hne]; exact fun h => h rfl)] at hb
      exact hslice b hb
    · rw [if_pos hne] at hb
      rcases List.mem_append.mp hb with hb | hb
      · exact hslice b hb
      · rw [List.mem_singleton] at hb
        subst hb
        refine ⟨j, by omega, ?_⟩
        rw [List.take_of_length_le (by rw [List.length_drop]; omega)]
        exact hj2
  · simp only [sentenceBuffers]
    by_cases hne :
        ((split_into_sentences text).foldl (bufStep cs) ([], [], 0)).2.1 = []
    · rw [if_neg (by rw [hne]; exact fun h => h rfl)]
      rw [hne, dedupConcat_append, List.drop_nil, List.append_nil] at hded
      exact hded
    · rw [if_pos hne]
      exact hded
